import Mathlib

/-!
Verification of the schema-profiling engine in
`src/gcp_data_collection/schema_profiler_helpers.py`.

The Python values handled by the engine (MongoDB documents) are embedded as
the inductive type `Value`: Python `None`, `bool`, `int`, `float`, `str`,
`bson.ObjectId`, `dict`, `list`, and a constructor `other` carrying the
runtime type name for any unrecognized type.  The functions
`get_type_name`, `iter_field_paths`, `discover_fields` and
`profile_collection` are translated directly from the source; the document
cursor is modelled as a `List Value` consumed in order, and Python sets,
dicts and Counters are modelled as insertion-ordered lists with
first-match lookup.
-/

namespace SchemaProfiler

/-- Embedding of the Python values traversed by the profiler. -/
inductive Value : Type where
  | null : Value
  | bool (b : Bool) : Value
  | int (n : Int) : Value
  | float : Value
  | str (s : String) : Value
  | objectId (s : String) : Value
  | obj (fields : List (String × Value)) : Value
  | arr (items : List Value) : Value
  | other (typeName : String) : Value

/-- Python `value is None`. -/
def isNone : Value → Bool
  | .null => true
  | _ => false

/-- Python `isinstance(value, (dict, list))`. -/
def isContainer : Value → Bool
  | .obj _ => true
  | .arr _ => true
  | _ => false

/-- `get_type_name` from the source: map values to stable type labels,
with the runtime type name as fallback for exotic types. -/
def get_type_name : Value → String
  | .null => "NoneType"
  | .bool _ => "bool"
  | .int _ => "int"
  | .float => "float"
  | .str _ => "string"
  | .objectId _ => "ObjectId"
  | .obj _ => "object"
  | .arr _ => "array"
  | .other typeName => typeName

/-- The path built in `iter_field_paths`:
Python `f"{prefix}.{key}" if prefix else key` (the prefix is falsy when it
is `None` or empty; the empty string models both). -/
def joinPath (pre key : String) : String :=
  if pre = "" then key else pre ++ "." ++ key

mutual

/-- `iter_field_paths` from the source: recursively yield
`(field_path, value)` pairs from a document.  The generator is modelled as
the list of pairs it yields, in yield order. -/
def iter_field_paths : Value → String → List (String × Value)
  | .obj fields, pre => iterObjFields fields pre
  | .arr items, pre => iterArrItems items pre
  | _, _ => []

/-- The `for key, value in obj.items()` loop of `iter_field_paths`:
emit the pair for the current path and drill into nested containers. -/
def iterObjFields : List (String × Value) → String → List (String × Value)
  | [], _ => []
  | (key, value) :: rest, pre =>
    ((joinPath pre key, value) ::
      (if isContainer value then iter_field_paths value (joinPath pre key) else []))
      ++ iterObjFields rest pre

/-- The `for item in obj` loop of `iter_field_paths`: arrays keep the same
prefix and only container elements are descended into; scalar elements
yield nothing. -/
def iterArrItems : List Value → String → List (String × Value)
  | [], _ => []
  | item :: rest, pre =>
    (if isContainer item then iter_field_paths item pre else []) ++ iterArrItems rest pre

end

/-- The field paths yielded by one traversal of a document. -/
def pathsOf (v : Value) (pre : String) : List String :=
  (iter_field_paths v pre).map Prod.fst

/-- Lexicographic (code-point) order on strings, as used by Python `sorted`
on `str`.  Stated on the underlying character lists so that it is
kernel-computable. -/
def strLe (a b : String) : Prop := a.data ≤ b.data

instance : DecidableRel strLe := fun a b => inferInstanceAs (Decidable (a.data ≤ b.data))

instance : IsTotal String strLe := ⟨fun a b => le_total a.data b.data⟩

instance : IsTrans String strLe := ⟨fun _ _ _ => le_trans⟩

instance : IsAntisymm String strLe :=
  ⟨fun _ _ h h' => String.toList_inj.mp (le_antisymm h h')⟩

/-- Python `sorted` on a collection of strings. -/
def sortStrings (l : List String) : List String := List.insertionSort strLe l

/-- Adding an element to a Python `set`, modelled as an insertion-ordered
duplicate-free list. -/
def insertNew (fs : List String) (p : String) : List String :=
  if p ∈ fs then fs else fs ++ [p]

/-- The inner loop of `discover_fields`: add every path of one document to
the accumulating set. -/
def addDocPaths (fs : List String) (doc : Value) : List String :=
  (iter_field_paths doc "").foldl (fun fs pr => insertNew fs pr.1) fs

/-- The break condition shared by both scan loops:
Python `scan_limit is not None and scan_limit > 0 and count > scan_limit`. -/
def hitLimit (lim : Option Int) (count : Nat) : Bool :=
  match lim with
  | none => false
  | some k => decide (0 < k) && decide (k < (count : Int))

/-- The document loop of `discover_fields`: count each document, break once
the limit is exceeded, otherwise collect its paths. -/
def discoverLoop : List Value → Option Int → Nat → List String → List String
  | [], _, _, fields => fields
  | doc :: rest, lim, count, fields =>
    if hitLimit lim (count + 1) then fields
    else discoverLoop rest lim (count + 1) (addDocPaths fields doc)

/-- `discover_fields` from the source, with the cursor modelled as a list:
collect all field paths up to the scan limit and return them sorted. -/
def discover_fields (docs : List Value) (scan_limit : Option Int) : List String :=
  sortStrings (discoverLoop docs scan_limit 0 [])

/-- The documents that are actually fed to `iter_field_paths` by either
scan loop (the loops break, before processing, on the first document whose
count exceeds a positive scan limit). -/
def processedDocs : List Value → Option Int → Nat → List Value
  | [], _, _ => []
  | doc :: rest, lim, count =>
    if hitLimit lim (count + 1) then []
    else doc :: processedDocs rest lim (count + 1)

/-- The per-path stats record built by `profile_collection`
(the value type of its `stats` defaultdict). -/
structure StatRec where
  present_count : Nat
  non_null_count : Nat
  type_counts : List (String × Nat)
deriving DecidableEq

/-- The defaultdict default: zero counts, empty Counter. -/
def defaultStat : StatRec := StatRec.mk 0 0 []

/-- `Counter[type_name] += 1`: increment the first matching entry or append
a fresh one. -/
def bump (c : List (String × Nat)) (t : String) : List (String × Nat) :=
  match c with
  | [] => [(t, 1)]
  | (k, n) :: rest => if k = t then (k, n + 1) :: rest else (k, n) :: bump rest t

/-- `stats[path] = f(stats[path])` on the defaultdict: rewrite the first
matching entry, or materialize the default and apply `f` to it. -/
def updateStat : List (String × StatRec) → String → (StatRec → StatRec) → List (String × StatRec)
  | [], p, f => [(p, f defaultStat)]
  | (k, r) :: rest, p, f => if k = p then (k, f r) :: rest else (k, r) :: updateStat rest p f

/-- defaultdict read access `stats[path]` (first match, default if absent). -/
def getStat : List (String × StatRec) → String → StatRec
  | [], _ => defaultStat
  | (k, r) :: rest, p => if k = p then r else getStat rest p

/-- The per-occurrence updates of `profile_collection`: bump the type
counter for the observed value and, when the value is not `None`,
increment the occurrence-level non-null counter. -/
def recordOccurrence (stats : List (String × StatRec)) (path : String) (value : Value) :
    List (String × StatRec) :=
  let stats1 := updateStat stats path
    (fun r => StatRec.mk r.present_count r.non_null_count (bump r.type_counts (get_type_name value)))
  if isNone value then stats1
  else updateStat stats1 path
    (fun r => StatRec.mk r.present_count (r.non_null_count + 1) r.type_counts)

/-- The per-document body of `profile_collection`: one pass over the
document's `(path, value)` pairs maintaining the `seen_paths` set and the
occurrence-level counters, then one `present_count` increment for every
path seen in this document. -/
def processDoc (stats : List (String × StatRec)) (doc : Value) : List (String × StatRec) :=
  let scanned := (iter_field_paths doc "").foldl
    (fun acc pr => (insertNew acc.1 pr.1, recordOccurrence acc.2 pr.1 pr.2)) ([], stats)
  scanned.1.foldl
    (fun st p => updateStat st p
      (fun r => StatRec.mk (r.present_count + 1) r.non_null_count r.type_counts))
    scanned.2

/-- The document loop of `profile_collection`: note that `total_docs` is
incremented before the break check, exactly as in the source. -/
def profileLoop : List Value → Option Int → Nat → List (String × StatRec) →
    Nat × List (String × StatRec)
  | [], _, total, stats => (total, stats)
  | doc :: rest, lim, total, stats =>
    if hitLimit lim (total + 1) then (total + 1, stats)
    else profileLoop rest lim (total + 1) (processDoc stats doc)

/-- The `FieldProfile` dataclass of the source. -/
structure FieldProfile where
  field : String
  total_docs : Nat
  present_count : Nat
  non_null_count : Nat
  type_counts : List (String × Nat)
deriving DecidableEq

/-- The `missing_count` property: `total_docs - present_count`
(Python integer subtraction). -/
def FieldProfile.missing_count (p : FieldProfile) : Int :=
  (p.total_docs : Int) - (p.present_count : Int)

/-- The `missing_pct` property: `0.0` when `total_docs == 0`, otherwise
`missing_count * 100.0 / total_docs`, with exact rational arithmetic
standing in for Python floats. -/
def FieldProfile.missing_pct (p : FieldProfile) : ℚ :=
  if p.total_docs = 0 then 0
  else (p.missing_count : ℚ) * 100 / (p.total_docs : ℚ)

/-- `profile_collection` from the source: run the scan loop, convert each
stats entry to a `FieldProfile` (in insertion order) and sort by field
path. -/
def profile_collection (docs : List Value) (scan_limit : Option Int) : List FieldProfile :=
  let scan := profileLoop docs scan_limit 0 []
  let profiles := scan.2.map (fun e =>
    FieldProfile.mk e.1 scan.1 e.2.present_count e.2.non_null_count e.2.type_counts)
  List.insertionSort (fun p q => strLe p.field q.field) profiles

/-- Number of occurrences of a field path in one document's traversal. -/
def occurrenceCount (p : String) (doc : Value) : Nat :=
  ((iter_field_paths doc "").filter (fun pr => pr.1 == p)).length

/-- Number of occurrences of a field path with a non-null value in one
document's traversal. -/
def nonNullOccurrenceCount (p : String) (doc : Value) : Nat :=
  ((iter_field_paths doc "").filter (fun pr => pr.1 == p && !(isNone pr.2))).length

/-- Total of all counts in a type counter. -/
def counterTotal (c : List (String × Nat)) : Nat := (c.map Prod.snd).sum

/-- Key list of the stats mapping, in insertion order. -/
def statKeys (st : List (String × StatRec)) : List String := st.map Prod.fst

instance : IsTotal FieldProfile (fun p q => strLe p.field q.field) :=
  ⟨fun a b => le_total a.field.data b.field.data⟩

instance : IsTrans FieldProfile (fun p q => strLe p.field q.field) :=
  ⟨fun _ _ _ => le_trans⟩

/-- First document of the spec's end-to-end scenario:
`{"id": 1, "tags": ["a"]}`. -/
def e2eDoc1 : Value := .obj [("id", .int 1), ("tags", .arr [.str "a"])]

/-- Second document of the spec's end-to-end scenario: `{"id": 2}`. -/
def e2eDoc2 : Value := .obj [("id", .int 2)]

/-- Third document of the spec's end-to-end scenario:
`{"id": 3, "tags": ["a", "b"], "nested": {"x": null}}`. -/
def e2eDoc3 : Value := .obj [("id", .int 3), ("tags", .arr [.str "a", .str "b"]),
  ("nested", .obj [("x", .null)])]

/-- The spec's end-to-end scenario input sequence. -/
def e2eDocs : List Value := [e2eDoc1, e2eDoc2, e2eDoc3]

/-- The document `{"a": 1}`. -/
def c3DocA : Value := .obj [("a", .int 1)]

/-- The document `{"b": 2}`. -/
def c3DocB : Value := .obj [("b", .int 2)]

mutual

/-- All object keys anywhere in the value are non-empty strings. -/
def keysNonempty : Value → Bool
  | .obj fields => fieldsKeysNonempty fields
  | .arr items => itemsKeysNonempty items
  | _ => true

/-- `keysNonempty` over the fields of an object. -/
def fieldsKeysNonempty : List (String × Value) → Bool
  | [] => true
  | (k, v) :: rest => (!(k == "")) && keysNonempty v && fieldsKeysNonempty rest

/-- `keysNonempty` over the elements of an array. -/
def itemsKeysNonempty : List Value → Bool
  | [] => true
  | v :: rest => keysNonempty v && itemsKeysNonempty rest

end

/-- Reordering of key/value pairs inside a document: the congruence
closure of swapping two adjacent object fields, together with rewriting
below an object field or an array element.  Array elements themselves are
never permuted, and no key, value multiset or array order is otherwise
changed. -/
inductive ReorderV : Value → Value → Prop where
  | refl (v : Value) : ReorderV v v
  | trans {u v w : Value} : ReorderV u v → ReorderV v w → ReorderV u w
  | objCongr (k : String) (v v' : Value) (before after : List (String × Value)) :
      ReorderV v v' →
      ReorderV (Value.obj (before ++ (k, v) :: after)) (Value.obj (before ++ (k, v') :: after))
  | objSwap (a b : String × Value) (before after : List (String × Value)) :
      ReorderV (Value.obj (before ++ a :: b :: after)) (Value.obj (before ++ b :: a :: after))
  | arrCongr (v v' : Value) (before after : List Value) :
      ReorderV v v' →
      ReorderV (Value.arr (before ++ v :: after)) (Value.arr (before ++ v' :: after))

/-! ### Set and counter lemmas -/

theorem mem_insertNew {fs : List String} {p x : String} :
    x ∈ insertNew fs p ↔ x ∈ fs ∨ x = p := by
  by_cases h : p ∈ fs
  · simp only [insertNew, if_pos h]
    exact ⟨Or.inl, fun hx => hx.elim id (fun hx => hx ▸ h)⟩
  · simp [insertNew, if_neg h]

theorem insertNew_idem (fs : List String) (p : String) :
    insertNew (insertNew fs p) p = insertNew fs p := by
  have h : p ∈ insertNew fs p := mem_insertNew.mpr (Or.inr rfl)
  conv_lhs => rw [insertNew]
  rw [if_pos h]

theorem nodup_insertNew {fs : List String} (h : fs.Nodup) (p : String) :
    (insertNew fs p).Nodup := by
  unfold insertNew
  split
  · exact h
  · rename_i hp
    simp [List.nodup_append, h, hp]

theorem mem_foldl_insertNew {α : Type} (l : List α) (g : α → String) (fs : List String)
    (x : String) :
    x ∈ l.foldl (fun fs a => insertNew fs (g a)) fs ↔ x ∈ fs ∨ x ∈ l.map g := by
  induction l generalizing fs with
  | nil => simp
  | cons a rest ih =>
    rw [List.foldl_cons, ih]
    simp [mem_insertNew, or_assoc]

theorem nodup_foldl_insertNew {α : Type} (l : List α) (g : α → String) {fs : List String}
    (h : fs.Nodup) :
    (l.foldl (fun fs a => insertNew fs (g a)) fs).Nodup := by
  induction l generalizing fs with
  | nil => exact h
  | cons a rest ih => exact ih (nodup_insertNew h (g a))

theorem foldl_insertNew_subset (l : List String) (fs : List String)
    (h : ∀ x ∈ l, x ∈ fs) :
    l.foldl (fun fs p => insertNew fs p) fs = fs := by
  induction l with
  | nil => rfl
  | cons p rest ih =>
    have hp : insertNew fs p = fs := by simp [insertNew, h p (by simp)]
    rw [List.foldl_cons, hp]
    exact ih fun x hx => h x (by simp [hx])

theorem counterTotal_bump (c : List (String × Nat)) (t : String) :
    counterTotal (bump c t) = counterTotal c + 1 := by
  induction c with
  | nil => rfl
  | cons e rest ih =>
    obtain ⟨k, n⟩ := e
    by_cases h : k = t <;> simp [bump, h, counterTotal] at ih ⊢ <;> omega

/-! ### defaultdict lemmas -/

theorem getStat_updateStat_self (st : List (String × StatRec)) (p : String)
    (f : StatRec → StatRec) :
    getStat (updateStat st p f) p = f (getStat st p) := by
  induction st with
  | nil => simp [updateStat, getStat]
  | cons e rest ih =>
    obtain ⟨k, r⟩ := e
    by_cases h : k = p <;> simp [updateStat, getStat, h, ih]

theorem getStat_updateStat_ne (st : List (String × StatRec)) {p q : String}
    (hq : q ≠ p) (f : StatRec → StatRec) :
    getStat (updateStat st p f) q = getStat st q := by
  induction st with
  | nil =>
    have h1 : ¬ p = q := fun h => hq h.symm
    simp [updateStat, getStat, h1]
  | cons e rest ih =>
    obtain ⟨k, r⟩ := e
    by_cases hk : k = p
    · subst hk
      have h1 : ¬ k = q := fun h => hq h.symm
      simp [updateStat, getStat, h1]
    · simp only [updateStat, if_neg hk]
      by_cases h2 : k = q <;> simp [getStat, h2, ih]

theorem statKeys_updateStat (st : List (String × StatRec)) (p : String)
    (f : StatRec → StatRec) :
    statKeys (updateStat st p f) = insertNew (statKeys st) p := by
  induction st with
  | nil => rfl
  | cons e rest ih =>
    obtain ⟨k, r⟩ := e
    by_cases hk : k = p
    · subst hk
      have hmem : k ∈ statKeys ((k, r) :: rest) := by simp [statKeys]
      simp only [updateStat, if_pos rfl, insertNew, if_pos hmem]
      rfl
    · have hne : ¬ p = k := fun hh => hk hh.symm
      simp only [updateStat, if_neg hk]
      show k :: statKeys (updateStat rest p f) = insertNew (k :: statKeys rest) p
      rw [ih]
      unfold insertNew
      by_cases hp : p ∈ statKeys rest
      · rw [if_pos hp, if_pos (by simp [hp])]
      · rw [if_neg hp, if_neg (by simp [hne, hp]), List.cons_append]

/-! ### Per-occurrence update lemmas -/

theorem getStat_recordOccurrence_self (st : List (String × StatRec)) (p : String) (v : Value) :
    getStat (recordOccurrence st p v) p =
      StatRec.mk (getStat st p).present_count
        ((getStat st p).non_null_count + (if isNone v then 0 else 1))
        (bump (getStat st p).type_counts (get_type_name v)) := by
  unfold recordOccurrence
  by_cases h : isNone v <;> simp [h, getStat_updateStat_self]

theorem getStat_recordOccurrence_ne (st : List (String × StatRec)) {p q : String}
    (hq : q ≠ p) (v : Value) :
    getStat (recordOccurrence st p v) q = getStat st q := by
  unfold recordOccurrence
  by_cases h : isNone v <;> simp [h, getStat_updateStat_ne _ hq]

theorem statKeys_recordOccurrence (st : List (String × StatRec)) (p : String) (v : Value) :
    statKeys (recordOccurrence st p v) = insertNew (statKeys st) p := by
  unfold recordOccurrence
  by_cases h : isNone v <;> simp [h, statKeys_updateStat, insertNew_idem]

/-! ### Phase 1 of `processDoc`: the occurrence fold -/

theorem foldl_pair_split (pairs : List (String × Value)) (s : List String)
    (st : List (String × StatRec)) :
    pairs.foldl (fun acc pr => (insertNew acc.1 pr.1, recordOccurrence acc.2 pr.1 pr.2)) (s, st) =
      (pairs.foldl (fun s pr => insertNew s pr.1) s,
       pairs.foldl (fun st pr => recordOccurrence st pr.1 pr.2) st) := by
  induction pairs generalizing s st with
  | nil => rfl
  | cons pr rest ih => rw [List.foldl_cons, List.foldl_cons, List.foldl_cons, ih]

theorem foldRecord_present (pairs : List (String × Value)) (st : List (String × StatRec))
    (q : String) :
    (getStat (pairs.foldl (fun st pr => recordOccurrence st pr.1 pr.2) st) q).present_count =
      (getStat st q).present_count := by
  induction pairs generalizing st with
  | nil => rfl
  | cons pr rest ih =>
    rw [List.foldl_cons, ih]
    by_cases h : q = pr.1
    · subst h
      rw [getStat_recordOccurrence_self]
    · rw [getStat_recordOccurrence_ne st h]

theorem foldRecord_nonNull (pairs : List (String × Value)) (st : List (String × StatRec))
    (q : String) :
    (getStat (pairs.foldl (fun st pr => recordOccurrence st pr.1 pr.2) st) q).non_null_count =
      (getStat st q).non_null_count +
        (pairs.filter (fun pr => pr.1 == q && !(isNone pr.2))).length := by
  induction pairs generalizing st with
  | nil => rfl
  | cons pr rest ih =>
    rw [List.foldl_cons, ih, List.filter_cons]
    by_cases h : pr.1 = q
    · subst h
      rw [getStat_recordOccurrence_self]
      by_cases hn : isNone pr.2 <;> simp [hn] <;> omega
    · rw [getStat_recordOccurrence_ne st (fun hh => h hh.symm)]
      simp [h]

theorem foldRecord_counterTotal (pairs : List (String × Value)) (st : List (String × StatRec))
    (q : String) :
    counterTotal (getStat (pairs.foldl (fun st pr => recordOccurrence st pr.1 pr.2) st) q).type_counts =
      counterTotal (getStat st q).type_counts +
        (pairs.filter (fun pr => pr.1 == q)).length := by
  induction pairs generalizing st with
  | nil => rfl
  | cons pr rest ih =>
    rw [List.foldl_cons, ih, List.filter_cons]
    by_cases h : pr.1 = q
    · subst h
      rw [getStat_recordOccurrence_self]
      simp [counterTotal_bump]
      omega
    · rw [getStat_recordOccurrence_ne st (fun hh => h hh.symm)]
      simp [h]

theorem statKeys_foldRecord (pairs : List (String × Value)) (st : List (String × StatRec)) :
    statKeys (pairs.foldl (fun st pr => recordOccurrence st pr.1 pr.2) st) =
      pairs.foldl (fun ks pr => insertNew ks pr.1) (statKeys st) := by
  induction pairs generalizing st with
  | nil => rfl
  | cons pr rest ih => rw [List.foldl_cons, List.foldl_cons, ih, statKeys_recordOccurrence]

/-! ### Phase 2 of `processDoc`: the presence fold -/

theorem foldPresent_getStat (seen : List String) (st : List (String × StatRec)) (q : String)
    (hnd : seen.Nodup) :
    getStat (seen.foldl (fun st p => updateStat st p
        (fun r => StatRec.mk (r.present_count + 1) r.non_null_count r.type_counts)) st) q =
      StatRec.mk ((getStat st q).present_count + (if q ∈ seen then 1 else 0))
        (getStat st q).non_null_count (getStat st q).type_counts := by
  induction seen generalizing st with
  | nil => simp
  | cons p rest ih =>
    have hrest : rest.Nodup := hnd.of_cons
    have hpnotin : p ∉ rest := (List.nodup_cons.mp hnd).1
    rw [List.foldl_cons, ih _ hrest]
    by_cases h : q = p
    · subst h
      rw [getStat_updateStat_self]
      simp [hpnotin]
    · rw [getStat_updateStat_ne st h]
      simp [h]

theorem statKeys_foldPresent (seen : List String) (st : List (String × StatRec)) :
    statKeys (seen.foldl (fun st p => updateStat st p
        (fun r => StatRec.mk (r.present_count + 1) r.non_null_count r.type_counts)) st) =
      seen.foldl (fun ks p => insertNew ks p) (statKeys st) := by
  induction seen generalizing st with
  | nil => rfl
  | cons p rest ih => rw [List.foldl_cons, List.foldl_cons, ih, statKeys_updateStat]

/-! ### `processDoc` summary lemmas -/

theorem mem_pathsOf_iff_occurrence (p : String) (doc : Value) :
    p ∈ pathsOf doc "" ↔ 1 ≤ occurrenceCount p doc := by
  unfold pathsOf occurrenceCount
  constructor
  · intro hp
    obtain ⟨pr, hpr, rfl⟩ := List.mem_map.mp hp
    have hmem : pr ∈ (iter_field_paths doc "").filter (fun pr2 => pr2.1 == pr.1) :=
      List.mem_filter.mpr ⟨hpr, by simp⟩
    have := List.length_pos.mpr (List.ne_nil_of_mem hmem)
    omega
  · intro h
    have hne : (iter_field_paths doc "").filter (fun pr => pr.1 == p) ≠ [] := by
      intro hnil
      rw [hnil] at h
      simp at h
    obtain ⟨pr, hpr⟩ := List.exists_mem_of_ne_nil _ hne
    obtain ⟨hmem, hbeq⟩ := List.mem_filter.mp hpr
    exact List.mem_map.mpr ⟨pr, hmem, by simpa using hbeq⟩

theorem processDoc_present (stats : List (String × StatRec)) (doc : Value) (q : String) :
    (getStat (processDoc stats doc) q).present_count =
      (getStat stats q).present_count + (if q ∈ pathsOf doc "" then 1 else 0) := by
  unfold processDoc
  rw [foldl_pair_split]
  have hnd : ((iter_field_paths doc "").foldl (fun s pr => insertNew s pr.1) []).Nodup :=
    nodup_foldl_insertNew _ _ List.nodup_nil
  rw [foldPresent_getStat _ _ _ hnd, foldRecord_present]
  have hmem : q ∈ (iter_field_paths doc "").foldl (fun s pr => insertNew s pr.1) [] ↔
      q ∈ pathsOf doc "" := by
    rw [mem_foldl_insertNew]
    simp [pathsOf]
  simp only [hmem]

theorem processDoc_nonNull (stats : List (String × StatRec)) (doc : Value) (q : String) :
    (getStat (processDoc stats doc) q).non_null_count =
      (getStat stats q).non_null_count + nonNullOccurrenceCount q doc := by
  unfold processDoc
  rw [foldl_pair_split]
  have hnd : ((iter_field_paths doc "").foldl (fun s pr => insertNew s pr.1) []).Nodup :=
    nodup_foldl_insertNew _ _ List.nodup_nil
  rw [foldPresent_getStat _ _ _ hnd]
  exact foldRecord_nonNull _ _ _

theorem processDoc_counterTotal (stats : List (String × StatRec)) (doc : Value) (q : String) :
    counterTotal (getStat (processDoc stats doc) q).type_counts =
      counterTotal (getStat stats q).type_counts + occurrenceCount q doc := by
  unfold processDoc
  rw [foldl_pair_split]
  have hnd : ((iter_field_paths doc "").foldl (fun s pr => insertNew s pr.1) []).Nodup :=
    nodup_foldl_insertNew _ _ List.nodup_nil
  rw [foldPresent_getStat _ _ _ hnd]
  exact foldRecord_counterTotal _ _ _

theorem nonNull_le_occurrence (p : String) (doc : Value) :
    nonNullOccurrenceCount p doc ≤ occurrenceCount p doc := by
  unfold nonNullOccurrenceCount occurrenceCount
  induction iter_field_paths doc "" with
  | nil => exact le_refl _
  | cons pr rest ih =>
    rw [List.filter_cons, List.filter_cons]
    by_cases h1 : (pr.1 == p) = true
    · by_cases h2 : (!(isNone pr.2)) = true <;> simp [h1, h2] <;> omega
    · simp [h1]
      exact ih

/-- Claim C2: processing one document inside `profile_collection` whose
traversal contains a path `p` at least once increments `present_count`
for `p` by exactly 1 (per-document de-duplication via the seen-paths set),
increments `non_null_count` by exactly the number of non-null occurrences
of `p`, increments the total of `type_counts` by exactly the number of
occurrences of `p`, and the non-null occurrences never exceed the
occurrences. -/
theorem C2_per_document_dedup :
    ∀ (stats : List (String × StatRec)) (doc : Value) (p : String),
      1 ≤ occurrenceCount p doc →
      (getStat (processDoc stats doc) p).present_count = (getStat stats p).present_count + 1
      ∧ (getStat (processDoc stats doc) p).non_null_count =
          (getStat stats p).non_null_count + nonNullOccurrenceCount p doc
      ∧ counterTotal (getStat (processDoc stats doc) p).type_counts =
          counterTotal (getStat stats p).type_counts + occurrenceCount p doc
      ∧ nonNullOccurrenceCount p doc ≤ occurrenceCount p doc := by
  intro stats doc p h
  refine ⟨?_, processDoc_nonNull stats doc p, processDoc_counterTotal stats doc p,
    nonNull_le_occurrence p doc⟩
  rw [processDoc_present, if_pos ((mem_pathsOf_iff_occurrence p doc).mpr h)]

/-- Witness for C2: a document with two occurrences of `opts.x`, exactly
one of them non-null, processed from the empty stats table. -/
theorem C2_witness :
    1 ≤ occurrenceCount "opts.x"
        (Value.obj [("opts", Value.arr [Value.obj [("x", Value.int 1)],
          Value.obj [("x", Value.null)]])])
    ∧ ((getStat (processDoc []
        (Value.obj [("opts", Value.arr [Value.obj [("x", Value.int 1)],
          Value.obj [("x", Value.null)]])])) "opts.x").present_count =
        (getStat [] "opts.x").present_count + 1
      ∧ (getStat (processDoc []
          (Value.obj [("opts", Value.arr [Value.obj [("x", Value.int 1)],
            Value.obj [("x", Value.null)]])])) "opts.x").non_null_count =
          (getStat [] "opts.x").non_null_count + nonNullOccurrenceCount "opts.x"
            (Value.obj [("opts", Value.arr [Value.obj [("x", Value.int 1)],
              Value.obj [("x", Value.null)]])])
      ∧ counterTotal (getStat (processDoc []
          (Value.obj [("opts", Value.arr [Value.obj [("x", Value.int 1)],
            Value.obj [("x", Value.null)]])])) "opts.x").type_counts =
          counterTotal (getStat [] "opts.x").type_counts + occurrenceCount "opts.x"
            (Value.obj [("opts", Value.arr [Value.obj [("x", Value.int 1)],
              Value.obj [("x", Value.null)]])])
      ∧ nonNullOccurrenceCount "opts.x"
          (Value.obj [("opts", Value.arr [Value.obj [("x", Value.int 1)],
            Value.obj [("x", Value.null)]])]) ≤
          occurrenceCount "opts.x"
            (Value.obj [("opts", Value.arr [Value.obj [("x", Value.int 1)],
              Value.obj [("x", Value.null)]])])) :=
  ⟨by decide, C2_per_document_dedup []
    (Value.obj [("opts", Value.arr [Value.obj [("x", Value.int 1)],
      Value.obj [("x", Value.null)]])]) "opts.x" (by decide)⟩

/-! ### Characterization of the traversal primitive -/

theorem iterObj_eq (fields : List (String × Value)) (pre : String) :
    iter_field_paths (Value.obj fields) pre =
      fields.flatMap (fun kv =>
        (joinPath pre kv.1, kv.2) ::
          (if isContainer kv.2 then iter_field_paths kv.2 (joinPath pre kv.1) else [])) := by
  show iterObjFields fields pre = _
  induction fields with
  | nil => rfl
  | cons kv rest ih =>
    obtain ⟨k, v⟩ := kv
    simp [iterObjFields, ih]

theorem iterArr_eq (items : List Value) (pre : String) :
    iter_field_paths (Value.arr items) pre =
      items.flatMap (fun item => if isContainer item then iter_field_paths item pre else []) := by
  show iterArrItems items pre = _
  induction items with
  | nil => rfl
  | cons v rest ih => simp [iterArrItems, ih]

theorem iter_scalar_eq (v : Value) (pre : String) (h : isContainer v = false) :
    iter_field_paths v pre = [] := by
  cases v <;> first
    | rfl
    | simp [isContainer] at h

theorem pathsOf_obj (fields : List (String × Value)) (pre : String) :
    pathsOf (Value.obj fields) pre =
      fields.flatMap (fun kv =>
        joinPath pre kv.1 ::
          (if isContainer kv.2 then pathsOf kv.2 (joinPath pre kv.1) else [])) := by
  unfold pathsOf
  rw [iterObj_eq, List.map_flatMap]
  refine List.flatMap_congr fun kv _ => ?_
  by_cases h : isContainer kv.2 <;> simp [h]

theorem pathsOf_arr (items : List Value) (pre : String) :
    pathsOf (Value.arr items) pre =
      items.flatMap (fun item => if isContainer item then pathsOf item pre else []) := by
  unfold pathsOf
  rw [iterArr_eq, List.map_flatMap]
  refine List.flatMap_congr fun item _ => ?_
  by_cases h : isContainer item <;> simp [h]

/-- Claim C1: case analysis of the traversal primitive.  On an `obj` it
emits `(path, value)` for every key/value pair, with
`path = pre ++ "." ++ key` when the prefix is non-empty and `path = key`
otherwise, followed by the recursion into container values with the new
path as prefix; on an `arr` it recurses into container elements with the
prefix unchanged and emits nothing for scalar elements; on a scalar
(including null) it emits nothing; and discovery on
`{"opts": [{"x": 1}, {"y": 2}]}` yields exactly
`["opts", "opts.x", "opts.y"]`. -/
theorem C1_iter_field_paths_cases :
    (∀ (fields : List (String × Value)) (pre : String),
      iter_field_paths (Value.obj fields) pre =
        fields.flatMap (fun kv =>
          (if pre = "" then kv.1 else pre ++ "." ++ kv.1, kv.2) ::
            (if isContainer kv.2
             then iter_field_paths kv.2 (if pre = "" then kv.1 else pre ++ "." ++ kv.1)
             else [])))
    ∧ (∀ (items : List Value) (pre : String),
      iter_field_paths (Value.arr items) pre =
        items.flatMap (fun item => if isContainer item then iter_field_paths item pre else []))
    ∧ (∀ (v : Value) (pre : String), isContainer v = false → iter_field_paths v pre = [])
    ∧ discover_fields [Value.obj [("opts", Value.arr [Value.obj [("x", Value.int 1)],
        Value.obj [("y", Value.int 2)]])]] Option.none = ["opts", "opts.x", "opts.y"] := by
  refine ⟨fun fields pre => ?_, iterArr_eq, iter_scalar_eq, rfl⟩
  simpa only [joinPath] using iterObj_eq fields pre

/-- Witness for C1: the scalar case applied at `null`. -/
theorem C1_witness : iter_field_paths Value.null "p" = [] :=
  C1_iter_field_paths_cases.2.2.1 Value.null "p" rfl

/-- Claim C7: the type-label classifier is a total function of one value:
every input is mapped to one of the eight recognized labels, and any other
value is mapped to its runtime type name (the documented fallback) instead
of failing. -/
theorem C7_get_type_name_total :
    ∀ v : Value,
      (∃ s, v = Value.other s ∧ get_type_name v = s) ∨
        get_type_name v ∈
          ["NoneType", "bool", "int", "float", "string", "ObjectId", "object", "array"] := by
  intro v
  cases v with
  | other s => exact Or.inl ⟨s, rfl, rfl⟩
  | _ => simp [get_type_name]

/-! ### The end-to-end scenario -/

/-- Counterexample to Claim C4 as stated: in the end-to-end scenario no
profile for `tags` has `non_null_count = 3` or `type_counts = [("string", 3)]`,
and the profile for `nested.x` does not carry the label `"null"`:
scalar array elements yield no occurrences, and the label of `None` is
`"NoneType"`. -/
theorem C4_counterexample :
    (¬ ∃ p ∈ profile_collection e2eDocs Option.none,
        p.field = "tags" ∧ p.non_null_count = 3 ∧ p.type_counts = [("string", 3)])
    ∧ (¬ ∃ p ∈ profile_collection e2eDocs Option.none,
        p.field = "nested.x" ∧ p.type_counts = [("null", 1)]) := by
  constructor <;> decide

/-- Claim C4 (amended): the end-to-end scenario evaluated on the code.
Discovery returns `["id", "nested", "nested.x", "tags"]`; the `tags`
profile has `total_docs = 3`, `present_count = 2`, `non_null_count = 2`
and `type_counts = [("array", 2)]` (one array occurrence per containing
document); the `nested.x` profile has `present_count = 1`,
`non_null_count = 0` and `type_counts = [("NoneType", 1)]`. -/
theorem C4_end_to_end :
    discover_fields e2eDocs Option.none = ["id", "nested", "nested.x", "tags"]
    ∧ profile_collection e2eDocs Option.none =
      [FieldProfile.mk "id" 3 3 3 [("int", 3)],
       FieldProfile.mk "nested" 3 1 1 [("object", 1)],
       FieldProfile.mk "nested.x" 3 1 0 [("NoneType", 1)],
       FieldProfile.mk "tags" 3 2 2 [("array", 2)]] := ⟨rfl, rfl⟩

/-! ### The scan-limit off-by-one -/

/-- Claim C3 evaluated at the failing input: with a source of two documents
and `scan_limit = 1`, only the first document is fed to the traversal
(both by `discover_fields` and by `profile_collection`), yet the recorded
`total_docs` is `2`, not `min(2, 1) = 1`: the counter is incremented
before the break check. -/
theorem C3_total_docs_off_by_one :
    profile_collection [c3DocA, c3DocB] (Option.some 1) =
      [FieldProfile.mk "a" 2 1 1 [("int", 1)]]
    ∧ processedDocs [c3DocA, c3DocB] (Option.some 1) 0 = [c3DocA]
    ∧ discover_fields [c3DocA, c3DocB] (Option.some 1) = ["a"] := ⟨rfl, rfl, rfl⟩

/-- Claim C5: `missing_count` is `total_docs - present_count`,
`missing_pct` is `100 * missing_count / total_docs` for a non-empty scan
and `0` for an empty one, and the two boundary profiles from the spec
evaluate to `100` and `0`. -/
theorem C5_missing_pct :
    (∀ p : FieldProfile,
      p.missing_count = (p.total_docs : Int) - (p.present_count : Int)
      ∧ (0 < p.total_docs →
          p.missing_pct = 100 * (p.missing_count : ℚ) / (p.total_docs : ℚ))
      ∧ (p.total_docs = 0 → p.missing_pct = 0))
    ∧ (FieldProfile.mk "f" 100 0 0 []).missing_pct = 100
    ∧ (FieldProfile.mk "g" 100 100 100 []).missing_pct = 0 := by
  refine ⟨fun p => ⟨rfl, fun h => ?_, fun h => ?_⟩, ?_, ?_⟩
  · rw [FieldProfile.missing_pct, if_neg (Nat.pos_iff_ne_zero.mp h)]
    ring
  · rw [FieldProfile.missing_pct, if_pos h]
  · norm_num [FieldProfile.missing_pct, FieldProfile.missing_count]
  · norm_num [FieldProfile.missing_pct, FieldProfile.missing_count]

/-! ### Scan-level lemmas: the discovery and profiling loops -/

theorem mem_addDocPaths (fs : List String) (doc : Value) (x : String) :
    x ∈ addDocPaths fs doc ↔ x ∈ fs ∨ x ∈ pathsOf doc "" := by
  unfold addDocPaths
  rw [mem_foldl_insertNew]
  exact Iff.rfl

theorem statKeys_processDoc (stats : List (String × StatRec)) (doc : Value) :
    statKeys (processDoc stats doc) = addDocPaths (statKeys stats) doc := by
  unfold processDoc
  rw [foldl_pair_split, statKeys_foldPresent, statKeys_foldRecord]
  apply foldl_insertNew_subset
  intro x hx
  have hx2 : x ∈ (iter_field_paths doc "").map Prod.fst := by
    have := (mem_foldl_insertNew (iter_field_paths doc "") Prod.fst [] x).mp hx
    simpa using this
  rw [mem_foldl_insertNew]
  exact Or.inr hx2

theorem profileLoop_keys (docs : List Value) (lim : Option Int) :
    ∀ (c : Nat) (st : List (String × StatRec)),
      statKeys (profileLoop docs lim c st).2 = discoverLoop docs lim c (statKeys st) := by
  induction docs with
  | nil => intro c st; rfl
  | cons d rest ih =>
    intro c st
    by_cases h : hitLimit lim (c + 1) <;>
      simp [profileLoop, discoverLoop, h, ih, statKeys_processDoc]

theorem mem_discoverLoop (docs : List Value) (lim : Option Int) :
    ∀ (c : Nat) (fs : List String) (x : String),
      x ∈ discoverLoop docs lim c fs ↔
        x ∈ fs ∨ ∃ d ∈ processedDocs docs lim c, x ∈ pathsOf d "" := by
  induction docs with
  | nil => intro c fs x; simp [discoverLoop, processedDocs]
  | cons doc rest ih =>
    intro c fs x
    by_cases h : hitLimit lim (c + 1)
    · simp [discoverLoop, processedDocs, h]
    · have e1 : discoverLoop (doc :: rest) lim c fs =
          discoverLoop rest lim (c + 1) (addDocPaths fs doc) := by
        simp [discoverLoop, h]
      have e2 : processedDocs (doc :: rest) lim c = doc :: processedDocs rest lim (c + 1) := by
        simp [processedDocs, h]
      rw [e1, e2, ih]
      simp [mem_addDocPaths, or_assoc]

theorem nodup_discoverLoop (docs : List Value) (lim : Option Int) :
    ∀ (c : Nat) {fs : List String}, fs.Nodup → (discoverLoop docs lim c fs).Nodup := by
  induction docs with
  | nil => intro c fs h; exact h
  | cons d rest ih =>
    intro c fs h
    by_cases hl : hitLimit lim (c + 1)
    · simpa [discoverLoop, hl] using h
    · have e1 : discoverLoop (d :: rest) lim c fs =
          discoverLoop rest lim (c + 1) (addDocPaths fs d) := by
        simp [discoverLoop, hl]
      rw [e1]
      exact ih _ (nodup_foldl_insertNew _ _ h)

theorem processedDocs_subset (docs : List Value) (lim : Option Int) :
    ∀ (c : Nat) {d : Value}, d ∈ processedDocs docs lim c → d ∈ docs := by
  induction docs with
  | nil => intro c d h; simp [processedDocs] at h
  | cons doc rest ih =>
    intro c d h
    by_cases hl : hitLimit lim (c + 1)
    · simp [processedDocs, hl] at h
    · have e : processedDocs (doc :: rest) lim c = doc :: processedDocs rest lim (c + 1) := by
        simp [processedDocs, hl]
      rw [e] at h
      rcases List.mem_cons.mp h with rfl | h
      · simp
      · simp [ih _ h]

/-! ### Sorting lemmas -/

theorem sorted_sortStrings (l : List String) : (sortStrings l).Sorted strLe :=
  List.sorted_insertionSort strLe l

theorem perm_sortStrings (l : List String) : (sortStrings l).Perm l :=
  List.perm_insertionSort strLe l

theorem strLe_iff_le (a b : String) : strLe a b ↔ a ≤ b := by
  rw [String.le_iff_toList_le]
  exact Iff.rfl

theorem sortStrings_eq_of_mem_iff {l₁ l₂ : List String} (h₁ : l₁.Nodup) (h₂ : l₂.Nodup)
    (h : ∀ x, x ∈ l₁ ↔ x ∈ l₂) : sortStrings l₁ = sortStrings l₂ :=
  List.eq_of_perm_of_sorted
    ((perm_sortStrings l₁).trans
      (((List.perm_ext_iff_of_nodup h₁ h₂).mpr h).trans (perm_sortStrings l₂).symm))
    (sorted_sortStrings l₁) (sorted_sortStrings l₂)

/-- The field column of `profile_collection` is exactly the sorted path
list of `discover_fields`: the stats keys created by the profiling scan
coincide with the path set collected by the discovery scan. -/
theorem profile_fields_eq_discover (docs : List Value) (lim : Option Int) :
    (profile_collection docs lim).map FieldProfile.field = discover_fields docs lim := by
  have hK : statKeys (profileLoop docs lim 0 []).2 = discoverLoop docs lim 0 [] :=
    profileLoop_keys docs lim 0 []
  have hperm : ((profile_collection docs lim).map FieldProfile.field).Perm
      (discoverLoop docs lim 0 []) := by
    simp only [profile_collection]
    refine ((List.perm_insertionSort _ _).map _).trans ?_
    rw [List.map_map]
    rw [show (FieldProfile.field ∘ fun e : String × StatRec =>
        FieldProfile.mk e.1 (profileLoop docs lim 0 []).1 e.2.present_count
          e.2.non_null_count e.2.type_counts) = Prod.fst from rfl]
    rw [show (profileLoop docs lim 0 []).2.map Prod.fst =
        statKeys (profileLoop docs lim 0 []).2 from rfl, hK]
  have hsorted : ((profile_collection docs lim).map FieldProfile.field).Sorted strLe := by
    simp only [profile_collection]
    exact List.pairwise_map.mpr (List.sorted_insertionSort _ _)
  exact List.eq_of_perm_of_sorted (hperm.trans (perm_sortStrings _).symm) hsorted
    (sorted_sortStrings _)

/-- Claim C10: discovery and profiling agree on the field universe: for
every document sequence and scan limit, the sorted path list of
`discover_fields` equals the field column of `profile_collection`. -/
theorem C10_discovery_profiling_agree :
    ∀ (docs : List Value) (lim : Option Int),
      discover_fields docs lim = (profile_collection docs lim).map FieldProfile.field :=
  fun docs lim => (profile_fields_eq_discover docs lim).symm

/-- Claim C9: `profile_collection` returns profiles with pairwise distinct
field paths, sorted ascending by field path, and a path has a profile iff
it occurs in the traversal of some document fed to the scan (no
zero-filling). -/
theorem C9_profiles_unique_sorted :
    ∀ (docs : List Value) (lim : Option Int),
      ((profile_collection docs lim).map FieldProfile.field).Nodup
      ∧ ((profile_collection docs lim).map FieldProfile.field).Sorted (· ≤ ·)
      ∧ ∀ p : String,
          p ∈ (profile_collection docs lim).map FieldProfile.field ↔
            ∃ d ∈ processedDocs docs lim 0, p ∈ pathsOf d "" := by
  intro docs lim
  have he := profile_fields_eq_discover docs lim
  refine ⟨?_, ?_, ?_⟩
  · rw [he]
    exact ((perm_sortStrings _).nodup_iff).mpr (nodup_discoverLoop docs lim 0 List.nodup_nil)
  · rw [he]
    exact (sorted_sortStrings _).imp fun h => (strLe_iff_le _ _).mp h
  · intro p
    rw [he]
    unfold discover_fields
    rw [(perm_sortStrings _).mem_iff, mem_discoverLoop]
    simp

/-! ### The empty path -/

theorem joinPath_ne_empty (pre k : String) (hpre : pre ≠ "" ∨ k ≠ "") : joinPath pre k ≠ "" := by
  unfold joinPath
  split
  · rename_i h
    subst h
    exact hpre.resolve_left (fun hh => hh rfl)
  · intro hc
    have := congrArg String.data hc
    simp [String.data_append] at this

mutual

theorem pathsNe_value : ∀ (v : Value) (pre : String), keysNonempty v = true →
    ∀ q ∈ pathsOf v pre, q ≠ ""
  | .obj fields, pre, h, q, hq => pathsNe_fields fields pre h q hq
  | .arr items, pre, h, q, hq => pathsNe_items items pre h q hq
  | .null, pre, h, q, hq => by simp [pathsOf, iter_field_paths] at hq
  | .bool b, pre, h, q, hq => by simp [pathsOf, iter_field_paths] at hq
  | .int n, pre, h, q, hq => by simp [pathsOf, iter_field_paths] at hq
  | .float, pre, h, q, hq => by simp [pathsOf, iter_field_paths] at hq
  | .str s, pre, h, q, hq => by simp [pathsOf, iter_field_paths] at hq
  | .objectId s, pre, h, q, hq => by simp [pathsOf, iter_field_paths] at hq
  | .other s, pre, h, q, hq => by simp [pathsOf, iter_field_paths] at hq

theorem pathsNe_fields : ∀ (fields : List (String × Value)) (pre : String),
    fieldsKeysNonempty fields = true → ∀ q ∈ pathsOf (Value.obj fields) pre, q ≠ ""
  | [], pre, h, q, hq => by simp [pathsOf, iter_field_paths, iterObjFields] at hq
  | (k, v) :: rest, pre, h, q, hq => by
    simp only [fieldsKeysNonempty, Bool.and_eq_true, Bool.not_eq_true',
      beq_eq_false_iff_ne] at h
    obtain ⟨⟨hk, hv⟩, hrest⟩ := h
    simp only [pathsOf, iter_field_paths, iterObjFields, List.map_append, List.map_cons,
      List.mem_append, List.mem_cons] at hq
    rcases hq with (rfl | hq) | hq
    · exact joinPath_ne_empty pre k (Or.inr hk)
    · by_cases hc : isContainer v
      · simp only [hc, if_true] at hq
        exact pathsNe_value v (joinPath pre k) hv q (by simpa [pathsOf] using hq)
      · simp [hc] at hq
    · exact pathsNe_fields rest pre hrest q (by simpa [pathsOf, iter_field_paths] using hq)

theorem pathsNe_items : ∀ (items : List Value) (pre : String),
    itemsKeysNonempty items = true → ∀ q ∈ pathsOf (Value.arr items) pre, q ≠ ""
  | [], pre, h, q, hq => by simp [pathsOf, iter_field_paths, iterArrItems] at hq
  | v :: rest, pre, h, q, hq => by
    simp only [itemsKeysNonempty, Bool.and_eq_true] at h
    obtain ⟨hv, hrest⟩ := h
    simp only [pathsOf, iter_field_paths, iterArrItems, List.map_append, List.mem_append] at hq
    rcases hq with hq | hq
    · by_cases hc : isContainer v
      · simp only [hc, if_true] at hq
        exact pathsNe_value v pre hv q (by simpa [pathsOf] using hq)
      · simp [hc] at hq
    · exact pathsNe_items rest pre hrest q (by simpa [pathsOf, iter_field_paths] using hq)

end

/-- Counterexample to Claim C6 as stated: object keys are arbitrary
strings, and with the empty string as a top-level key the empty path is
emitted by discovery. -/
theorem C6_counterexample :
    "" ∈ discover_fields [Value.obj [("", Value.int 1)]] Option.none := by decide

/-- Claim C6 (amended): for documents all of whose object keys are
non-empty, the empty path never appears in the output of discovery or
profiling; and every top-level key appears itself (as a depth-1 path) in
the traversal of its document. -/
theorem C6_no_empty_path :
    (∀ (docs : List Value) (lim : Option Int),
      docs.all keysNonempty = true →
      (discover_fields docs lim).all (fun p => !(p == "")) = true
      ∧ (profile_collection docs lim).all (fun q => !(q.field == "")) = true)
    ∧ ∀ (fields : List (String × Value)) (kv : String × Value), kv ∈ fields →
        kv.1 ∈ pathsOf (Value.obj fields) "" := by
  constructor
  · intro docs lim hdocs
    have hdocs2 : ∀ d ∈ docs, keysNonempty d = true := by
      simpa [List.all_eq_true] using hdocs
    have hdisc : ∀ p ∈ discover_fields docs lim, p ≠ "" := by
      intro p hp
      unfold discover_fields at hp
      rw [(perm_sortStrings _).mem_iff, mem_discoverLoop] at hp
      rcases hp with h | ⟨d, hd, hpd⟩
      · simp at h
      · exact pathsNe_value d "" (hdocs2 d (processedDocs_subset docs lim 0 hd)) p hpd
    constructor
    · rw [List.all_eq_true]
      intro p hp
      simpa using hdisc p hp
    · rw [List.all_eq_true]
      intro q hq
      have : q.field ∈ (profile_collection docs lim).map FieldProfile.field :=
        List.mem_map.mpr ⟨q, hq, rfl⟩
      rw [profile_fields_eq_discover] at this
      simpa using hdisc q.field this
  · intro fields kv hkv
    rw [pathsOf_obj]
    exact List.mem_flatMap.mpr ⟨kv, hkv, by simp [joinPath]⟩

/-- Witness for C6: the amended statement applied to a one-document source
with a non-empty key. -/
theorem C6_witness :
    [Value.obj [("a", Value.int 1)]].all keysNonempty = true
    ∧ ((discover_fields [Value.obj [("a", Value.int 1)]] Option.none).all
          (fun p => !(p == "")) = true
      ∧ (profile_collection [Value.obj [("a", Value.int 1)]] Option.none).all
          (fun q => !(q.field == "")) = true) :=
  ⟨by decide, C6_no_empty_path.1 [Value.obj [("a", Value.int 1)]] Option.none (by decide)⟩

/-! ### Reordering invariance of discovery -/

theorem reorder_isContainer {v v' : Value} (h : ReorderV v v') :
    isContainer v = isContainer v' := by
  induction h with
  | refl v => rfl
  | trans h1 h2 ih1 ih2 => exact ih1.trans ih2
  | objCongr k v v' bef aft hv ih => rfl
  | objSwap a b bef aft => rfl
  | arrCongr v v' bef aft hv ih => rfl

theorem pathsOf_perm_of_reorder {v v' : Value} (h : ReorderV v v') :
    ∀ pre, (pathsOf v pre).Perm (pathsOf v' pre) := by
  induction h with
  | refl v => exact fun pre => List.Perm.refl _
  | trans h1 h2 ih1 ih2 => exact fun pre => (ih1 pre).trans (ih2 pre)
  | objCongr k v v' bef aft hv ih =>
    intro pre
    rw [pathsOf_obj, pathsOf_obj]
    simp only [List.flatMap_append, List.flatMap_cons]
    refine List.Perm.append_left _ (List.Perm.append_right _ ?_)
    refine List.Perm.cons _ ?_
    rw [← reorder_isContainer hv]
    by_cases hc : isContainer v = true
    · simp only [hc, if_true]
      exact ih _
    · simp [hc]
  | objSwap a b bef aft =>
    intro pre
    rw [pathsOf_obj, pathsOf_obj]
    simp only [List.flatMap_append, List.flatMap_cons]
    refine List.Perm.append_left _ ?_
    rw [← List.append_assoc, ← List.append_assoc]
    exact List.Perm.append_right _ List.perm_append_comm
  | arrCongr v v' bef aft hv ih =>
    intro pre
    rw [pathsOf_arr, pathsOf_arr]
    simp only [List.flatMap_append, List.flatMap_cons]
    refine List.Perm.append_left _ (List.Perm.append_right _ ?_)
    rw [← reorder_isContainer hv]
    by_cases hc : isContainer v = true
    · simp only [hc, if_true]
      exact ih _
    · simp [hc]

theorem discoverLoop_mem_of_reorder {docs docs' : List Value}
    (h : List.Forall₂ ReorderV docs docs') (lim : Option Int) :
    ∀ (c : Nat) (fs fs' : List String), (∀ x, x ∈ fs ↔ x ∈ fs') →
      ∀ x, x ∈ discoverLoop docs lim c fs ↔ x ∈ discoverLoop docs' lim c fs' := by
  induction h with
  | nil => exact fun c fs fs' hm x => hm x
  | cons hd hrest ih =>
    rename_i d d' ds ds'
    intro c fs fs' hm x
    by_cases hl : hitLimit lim (c + 1)
    · simp [discoverLoop, hl, hm x]
    · have e1 : discoverLoop (d :: ds) lim c fs =
          discoverLoop ds lim (c + 1) (addDocPaths fs d) := by
        simp [discoverLoop, hl]
      have e2 : discoverLoop (d' :: ds') lim c fs' =
          discoverLoop ds' lim (c + 1) (addDocPaths fs' d') := by
        simp [discoverLoop, hl]
      rw [e1, e2]
      apply ih
      intro y
      rw [mem_addDocPaths, mem_addDocPaths, hm y,
        (pathsOf_perm_of_reorder hd "").mem_iff]

theorem discover_fields_of_reorder {docs docs' : List Value}
    (h : List.Forall₂ ReorderV docs docs') (lim : Option Int) :
    discover_fields docs lim = discover_fields docs' lim :=
  sortStrings_eq_of_mem_iff (nodup_discoverLoop docs lim 0 List.nodup_nil)
    (nodup_discoverLoop docs' lim 0 List.nodup_nil)
    (discoverLoop_mem_of_reorder h lim 0 [] [] (fun _ => Iff.rfl))

/-- Claim C8: discovery is deterministic and idempotent (two runs on the
same input sequence and scan limit are equal), its result is a
lexicographically sorted duplicate-free list, and it is unchanged under
any reordering of the key/value pairs inside each document. -/
theorem C8_discovery_deterministic :
    (∀ (docs : List Value) (lim : Option Int),
      discover_fields docs lim = discover_fields docs lim)
    ∧ (∀ (docs : List Value) (lim : Option Int),
      (discover_fields docs lim).Sorted (· ≤ ·) ∧ (discover_fields docs lim).Nodup)
    ∧ ∀ (docs docs' : List Value) (lim : Option Int),
        List.Forall₂ ReorderV docs docs' →
        discover_fields docs lim = discover_fields docs' lim := by
  refine ⟨fun docs lim => rfl, fun docs lim => ⟨?_, ?_⟩,
    fun docs docs' lim h => discover_fields_of_reorder h lim⟩
  · exact (sorted_sortStrings _).imp fun h => (strLe_iff_le _ _).mp h
  · exact ((perm_sortStrings _).nodup_iff).mpr (nodup_discoverLoop docs lim 0 List.nodup_nil)

/-- Witness for C8: a concrete one-document source with its two top-level
fields swapped yields the same discovery output. -/
theorem C8_witness :
    List.Forall₂ ReorderV [Value.obj [("b", Value.int 2), ("a", Value.int 1)]]
        [Value.obj [("a", Value.int 1), ("b", Value.int 2)]]
    ∧ discover_fields [Value.obj [("b", Value.int 2), ("a", Value.int 1)]] Option.none =
        discover_fields [Value.obj [("a", Value.int 1), ("b", Value.int 2)]] Option.none :=
  ⟨List.Forall₂.cons (ReorderV.objSwap ("b", Value.int 2) ("a", Value.int 1) [] [])
      List.Forall₂.nil,
   C8_discovery_deterministic.2.2 _ _ Option.none
     (List.Forall₂.cons (ReorderV.objSwap ("b", Value.int 2) ("a", Value.int 1) [] [])
       List.Forall₂.nil)⟩

/-- Witness for C5: the formula applied to a concrete profile with a
positive document count. -/
theorem C5_witness :
    0 < (FieldProfile.mk "w" 37 12 5 [("int", 5)]).total_docs
    ∧ (FieldProfile.mk "w" 37 12 5 [("int", 5)]).missing_pct =
        100 * ((FieldProfile.mk "w" 37 12 5 [("int", 5)]).missing_count : ℚ) /
          ((FieldProfile.mk "w" 37 12 5 [("int", 5)]).total_docs : ℚ) :=
  ⟨by norm_num, (C5_missing_pct.1 (FieldProfile.mk "w" 37 12 5 [("int", 5)])).2.1 (by norm_num)⟩

end SchemaProfiler
